import Mathlib

set_option maxRecDepth 8000

/-!
Shallow embedding of the point-name extraction core of
`src/extract_point_names.py` (RTUPointListParser).

Python strings are modelled as lists of characters (`PyStr`); the Python
string primitives used by the core (`strip`, `upper`, `split`, `join`,
character classes, substring containment, the two regular expressions) are
given explicit executable definitions, and the four core functions
(`clean_ocr_artifacts`, `is_valid_point_name`,
`extract_point_name_from_section`, `extract_point_names_from_text`) are
translated statement by statement from the source.  Character classes
(`isdigit`, `isalpha`, `isupper`, `upper`) are modelled on their ASCII
behaviour, which coincides with Python on the ASCII inputs this document
family contains.
-/

abbrev PyStr := List Char

/-- The whitespace class of Python `str.strip` / `str.split()` / `\s`
(ASCII part): space, tab, newline, carriage return, vertical tab, form feed. -/
def isSpace (c : Char) : Bool :=
  c == ' ' || c == '\t' || c == '\n' || c == '\r' || c == '\x0b' || c == '\x0c'

/-- Python `str.upper` (ASCII model): uppercase each character. -/
def pyUpper (s : PyStr) : PyStr := s.map Char.toUpper

/-- Python `str.strip`: drop leading and trailing whitespace. -/
def pyStrip (s : PyStr) : PyStr :=
  ((s.dropWhile isSpace).reverse.dropWhile isSpace).reverse

/-- Boolean test that `u` is an initial segment of `v`. -/
def isPrefOf : PyStr → PyStr → Bool
  | [], _ => true
  | _ :: _, [] => false
  | a :: as, b :: bs => a == b && isPrefOf as bs

/-- Python `needle in hay`: substring containment. -/
def containsSub : PyStr → PyStr → Bool
  | [], needle => isPrefOf needle []
  | c :: rest, needle => isPrefOf needle (c :: rest) || containsSub rest needle

/-- Helper of `pySplitOn`: the accumulator holds the current field reversed. -/
def splitOnAux (sep : Char) : PyStr → PyStr → List PyStr
  | [], cur => [cur.reverse]
  | c :: rest, cur =>
    if c == sep then cur.reverse :: splitOnAux sep rest []
    else splitOnAux sep rest (c :: cur)

/-- Python `str.split(sep)` with an explicit one-character separator:
splits at every occurrence and keeps empty fields. -/
def pySplitOn (sep : Char) (s : PyStr) : List PyStr := splitOnAux sep s []

/-- Helper of `pySplitWs`: the accumulator holds the current word reversed. -/
def splitWsAux : PyStr → PyStr → List PyStr
  | [], cur => if cur.isEmpty then [] else [cur.reverse]
  | c :: rest, cur =>
    if isSpace c then
      if cur.isEmpty then splitWsAux rest []
      else cur.reverse :: splitWsAux rest []
    else splitWsAux rest (c :: cur)

/-- Python `str.split()` with no argument: split on runs of whitespace,
discarding empty words. -/
def pySplitWs (s : PyStr) : List PyStr := splitWsAux s []

/-- Python `' '.join`: concatenate with a single space between items. -/
def joinSpace : List PyStr → PyStr
  | [] => []
  | [t] => t
  | t :: t' :: ts => t ++ ' ' :: joinSpace (t' :: ts)

/-- Helper of `collapseWs`: the flag records whether the previous character
was part of a whitespace run already rendered as one space. -/
def collapseAux : Bool → PyStr → PyStr
  | _, [] => []
  | prevSpace, c :: rest =>
    if isSpace c then
      if prevSpace then collapseAux true rest
      else ' ' :: collapseAux true rest
    else c :: collapseAux false rest

/-- Python `re.sub(r'\s+', ' ', s)`: replace every maximal whitespace run
by a single space. -/
def collapseWs (s : PyStr) : PyStr := collapseAux false s

/-- Python `str.isdigit` (ASCII model): nonempty and all decimal digits. -/
def isDigitStr (s : PyStr) : Bool := !s.isEmpty && s.all Char.isDigit

/-- Source constant `MAX_NAME_TOKENS = 10`. -/
def MAX_NAME_TOKENS : Nat := 10

/-- Source constant `MAX_SMALL_NUMBER_LENGTH = 2`. -/
def MAX_SMALL_NUMBER_LENGTH : Nat := 2

/-- The character class of `re.sub(r'[|\[\](){}\_]', '', token)`. -/
def artifactChars : PyStr := ['|', '[', ']', '(', ')', '{', '}', '_']

/-- Step two of `clean_ocr_artifacts`:
`if cleaned.startswith('l') and len(cleaned) > 1 and cleaned[1].isupper(): cleaned = cleaned[1:]`. -/
def lFix : PyStr → PyStr
  | a :: c :: rest => if a == 'l' && c.isUpper then c :: rest else a :: c :: rest
  | other => other

/-- Step three of `clean_ocr_artifacts`:
`if cleaned.startswith('/') and len(cleaned) > 1: cleaned = cleaned[1:]`. -/
def slashFix : PyStr → PyStr
  | a :: c :: rest => if a == '/' then c :: rest else a :: c :: rest
  | other => other

/-- Source `clean_ocr_artifacts`: delete artifact characters, drop a
leading lowercase l before an uppercase character, drop a leading slash
of a longer token, and strip. -/
def clean_ocr_artifacts (token : PyStr) : PyStr :=
  pyStrip (slashFix (lFix (token.filter (fun c => !(artifactChars.contains c)))))

/-- The characters of the literal "SPARE". -/
def spareChars : PyStr := String.toList "SPARE"

/-- Source `is_valid_point_name`: reject empty or all-whitespace names,
names whose uppercased stripped form contains SPARE, names of trimmed
length at most one, and names without any alphabetic character. -/
def is_valid_point_name (name : PyStr) : Bool :=
  if name.isEmpty || (pyStrip name).isEmpty then false
  else if containsSub (pyStrip (pyUpper name)) spareChars then false
  else if (pyStrip name).length ≤ 1 then false
  else if !(name.any Char.isAlpha) then false
  else true

/-- Source list `stop_keywords` of `extract_point_name_from_section`. -/
def stop_keywords : List PyStr :=
  (["CLOSE", "OPEN", "NORMAL", "ALARM", "AUTO", "SOLID", "MANUAL",
    "RK", "DI", "[or", "[ot", "[pI", "[oI", "[dI"]).map String.toList

/-- Source condition `any(keyword in token.upper() for keyword in stop_keywords)`. -/
def stopCheck (token : PyStr) : Bool :=
  stop_keywords.any (fun k => containsSub (pyUpper token) k)

/-- The token loop of `extract_point_name_from_section`: `acc` is the
`name_tokens` accumulator. -/
def extractLoop : List PyStr → List PyStr → List PyStr
  | [], acc => acc
  | token :: rest, acc =>
    if stopCheck token then acc
    else
      let cleaned := clean_ocr_artifacts token
      if cleaned.isEmpty then extractLoop rest acc
      else if isDigitStr cleaned && decide (0 < acc.length) then
        if cleaned.length ≤ MAX_SMALL_NUMBER_LENGTH then acc ++ [cleaned] else acc
      else
        if MAX_NAME_TOKENS ≤ (acc ++ [cleaned]).length then acc ++ [cleaned]
        else extractLoop rest (acc ++ [cleaned])

/-- Source `extract_point_name_from_section`: split into tokens, run the
collection loop, join with single spaces, strip, collapse whitespace runs. -/
def extract_point_name_from_section (text : PyStr) : PyStr :=
  let tokens := pySplitWs text
  if tokens.isEmpty then []
  else collapseWs (pyStrip (joinSpace (extractLoop tokens [])))

/-- The metadata skip list of `extract_point_names_from_text`. -/
def skipSubstrings : List PyStr :=
  (["PLOT BY:", ".dwg", "DIAG", "NOTE", "COEFFICIENT", "OFFSET"]).map String.toList

/-- The characters of the header marker "POINT NAME". -/
def pointNameHeader : PyStr := String.toList "POINT NAME"

/-- The middle character class of the row pattern
`^(\d+)\s*[|\[\s]+(.+)`: pipe, opening bracket or whitespace. -/
def isSepClass (c : Char) : Bool := c == '|' || c == '[' || isSpace c

/-- `re.match(r'^(\d+)\s*[|\[\s]+(.+)', line)`: a leading digit run, then a
nonempty run of separator-class characters, then a nonempty remainder
captured as group 2.  When the whole tail of the line lies in the separator
class, the greedy middle backtracks by one character so that `(.+)` can
still match. -/
def rowMatch (line : PyStr) : Option PyStr :=
  let ds := line.takeWhile Char.isDigit
  if ds.isEmpty then none
  else
    let rest := line.drop ds.length
    let run := rest.takeWhile isSepClass
    if run.isEmpty then none
    else if run.length < rest.length then some (rest.drop run.length)
    else if 2 ≤ run.length then some (rest.drop (run.length - 1))
    else none

/-- One iteration of the line loop of `extract_point_names_from_text`. -/
def processLine (acc : List PyStr) (rawLine : PyStr) : List PyStr :=
  let line := pyStrip rawLine
  if line.isEmpty then acc
  else if containsSub (pyUpper line) pointNameHeader then acc
  else if skipSubstrings.any (fun s => containsSub line s) then acc
  else
    match rowMatch line with
    | none => acc
    | some rem =>
      let remainder := pyStrip rem
      let sections := pySplitOn '|' remainder
      let first_section := pyStrip (sections.headD [])
      let point_name := extract_point_name_from_section first_section
      if !point_name.isEmpty && is_valid_point_name point_name then acc ++ [point_name]
      else acc

/-- Source `extract_point_names_from_text`: split the document on newlines
and run the line classifier over every line, accumulating validated names. -/
def extract_point_names_from_text (text : PyStr) : List PyStr :=
  (pySplitOn '\n' text).foldl processLine []

/-- Specification wording of the second cleaning step: if the token starts
with a lowercase l, is longer than one character and its second character
is uppercase, the leading l is dropped. -/
def lSpecStep (s : PyStr) : PyStr :=
  if s.head?.getD ' ' == 'l' && decide (1 < s.length) && ((s.drop 1).head?.getD ' ').isUpper
  then s.drop 1 else s

/-- Specification wording of the third cleaning step: if the token starts
with a slash and has length greater than one, the leading slash is dropped. -/
def slashSpecStep (s : PyStr) : PyStr :=
  if s.head?.getD ' ' == '/' && decide (1 < s.length) then s.drop 1 else s

/-- The token cleaner as the specification words it (section 4.1): delete
the eight artifact characters, apply the two heading corrections, then
trim.  Stated independently of the source translation so the two can be
compared. -/
def clean_spec (token : PyStr) : PyStr :=
  pyStrip (slashSpecStep (lSpecStep (token.filter (fun c =>
    !(c == '|' || c == '[' || c == ']' || c == '(' || c == ')' ||
      c == '{' || c == '}' || c == '_')))))

/-- The nine purely alphabetic stop keywords. -/
def nineKeys : List PyStr :=
  (["CLOSE", "OPEN", "NORMAL", "ALARM", "AUTO", "SOLID", "MANUAL",
    "RK", "DI"]).map String.toList

/-- The stop condition restricted to the nine alphabetic keywords. -/
def nineKeyCheck (token : PyStr) : Bool :=
  nineKeys.any (fun k => containsSub (pyUpper token) k)

/-- Does the string start with a lowercase l followed by an uppercase
character? -/
def startsLUpper : PyStr → Bool
  | a :: c :: _ => a == 'l' && c.isUpper
  | _ => false

/-- Does the string start with a slash? -/
def startsSlash : PyStr → Bool
  | a :: _ => a == '/'
  | _ => false

/-! ## Lemmas about the string primitives -/

theorem isPrefOf_iff : ∀ u v : PyStr, isPrefOf u v = true ↔ u <+: v
  | [], v => by simp [isPrefOf]
  | _ :: _, [] => by simp [isPrefOf]
  | a :: as, b :: bs => by
    simp [isPrefOf, isPrefOf_iff as bs, List.cons_prefix_cons, beq_iff_eq]

theorem containsSub_iff : ∀ hay needle : PyStr, containsSub hay needle = true ↔ needle <:+: hay
  | [], needle => by cases needle <;> simp [containsSub, isPrefOf]
  | c :: rest, needle => by
    simp [containsSub, isPrefOf_iff, containsSub_iff rest needle, List.infix_cons_iff]

theorem containsSub_mono {h H n : PyStr} (hc : containsSub h n = true) (hi : h <:+: H) :
    containsSub H n = true := by
  rw [containsSub_iff] at hc ⊢
  exact hc.trans hi

theorem head_false_of_dropWhile_eq (p : Char → Bool) (a : Char) (l : PyStr)
    (h : (a :: l).dropWhile p = a :: l) : p a = false := by
  have := List.dropWhile_eq_self_iff.1 h (by simp)
  simpa using this

theorem dropWhile_eq_self_of_pref {p : Char → Bool} {z y : PyStr}
    (hzy : z <+: y) (hy : y.dropWhile p = y) : z.dropWhile p = z := by
  cases z with
  | nil => rfl
  | cons a as =>
    rcases hzy with ⟨t, rfl⟩
    have ha : p a = false := head_false_of_dropWhile_eq p a (as ++ t) hy
    rw [List.dropWhile_cons, if_neg (by simp [ha])]

theorem pyStrip_isInfix (s : PyStr) : pyStrip s <:+: s := by
  unfold pyStrip
  have h1 : s.dropWhile isSpace <:+ s := List.dropWhile_suffix isSpace
  have h3 : ((s.dropWhile isSpace).reverse.dropWhile isSpace).reverse <+: s.dropWhile isSpace :=
    List.reverse_suffix.1 (by simpa using List.dropWhile_suffix (l := (s.dropWhile isSpace).reverse) isSpace)
  exact h3.isInfix.trans h1.isInfix

theorem pyStrip_idem (s : PyStr) : pyStrip (pyStrip s) = pyStrip s := by
  set y := s.dropWhile isSpace with hy
  have hyy : y.dropWhile isSpace = y := by rw [hy]; exact List.dropWhile_idempotent _ _
  set z := (y.reverse.dropWhile isSpace).reverse with hz
  have hzy : z <+: y := List.reverse_suffix.1 (by simpa [hz] using List.dropWhile_suffix (l := y.reverse) isSpace)
  have h1 : z.dropWhile isSpace = z := dropWhile_eq_self_of_pref hzy hyy
  have h2 : z.reverse.dropWhile isSpace = z.reverse := by
    rw [hz, List.reverse_reverse]
    exact List.dropWhile_idempotent _ _
  show ((z.dropWhile isSpace).reverse.dropWhile isSpace).reverse = z
  rw [h1, h2, List.reverse_reverse]

theorem infix_dropWhile (p : Char → Bool) (needle : PyStr) (hne : needle ≠ [])
    (hns : ∀ c ∈ needle, p c = false) :
    ∀ s : PyStr, needle <:+: s → needle <:+: s.dropWhile p
  | [], h => by simpa using h
  | c :: rest, h => by
    by_cases hp : p c = true
    · rw [List.dropWhile_cons, if_pos hp]
      rcases List.infix_cons_iff.1 h with hpre | hinf
      · cases needle with
        | nil => exact absurd rfl hne
        | cons a as =>
          rcases List.cons_prefix_cons.1 hpre with ⟨rfl, -⟩
          rw [hns a (by simp)] at hp
          cases hp
      · exact infix_dropWhile p needle hne hns rest hinf
    · rw [List.dropWhile_cons, if_neg hp]
      exact h

theorem infix_pyStrip {needle s : PyStr} (hne : needle ≠ [])
    (hns : ∀ c ∈ needle, isSpace c = false) (h : needle <:+: s) :
    needle <:+: pyStrip s := by
  unfold pyStrip
  have h1 := infix_dropWhile isSpace needle hne hns s h
  have h2 : needle.reverse <:+: (s.dropWhile isSpace).reverse := List.reverse_infix.2 h1
  have h3 := infix_dropWhile isSpace needle.reverse (by simpa using hne)
    (fun c hc => hns c (List.mem_reverse.1 hc)) _ h2
  simpa using List.reverse_infix.2 h3

/-! ## Lemmas about the token cleaner -/

theorem lFix_subset (s : PyStr) : lFix s ⊆ s := by
  cases s with
  | nil => exact fun x hx => hx
  | cons a t =>
    cases t with
    | nil => exact fun x hx => hx
    | cons c rest =>
      simp only [lFix]
      split
      · exact fun x hx => List.mem_cons_of_mem _ hx
      · exact fun x hx => hx

theorem slashFix_subset (s : PyStr) : slashFix s ⊆ s := by
  cases s with
  | nil => exact fun x hx => hx
  | cons a t =>
    cases t with
    | nil => exact fun x hx => hx
    | cons c rest =>
      simp only [slashFix]
      split
      · exact fun x hx => List.mem_cons_of_mem _ hx
      · exact fun x hx => hx

theorem mem_of_mem_clean {c : Char} {t : PyStr} (h : c ∈ clean_ocr_artifacts t) : c ∈ t := by
  unfold clean_ocr_artifacts at h
  have h1 := (pyStrip_isInfix _).subset h
  have h2 := slashFix_subset _ h1
  have h3 := lFix_subset _ h2
  exact (List.mem_filter.1 h3).1

theorem clean_no_artifact {c : Char} {t : PyStr} (h : c ∈ clean_ocr_artifacts t) :
    artifactChars.contains c = false := by
  unfold clean_ocr_artifacts at h
  have h1 := (pyStrip_isInfix _).subset h
  have h2 := slashFix_subset _ h1
  have h3 := lFix_subset _ h2
  simpa using (List.mem_filter.1 h3).2

theorem pyStrip_clean (t : PyStr) : pyStrip (clean_ocr_artifacts t) = clean_ocr_artifacts t := by
  unfold clean_ocr_artifacts
  exact pyStrip_idem _

theorem lFix_eq_self {s : PyStr} (h : startsLUpper s = false) : lFix s = s := by
  cases s with
  | nil => rfl
  | cons a t =>
    cases t with
    | nil => rfl
    | cons c rest =>
      simp only [startsLUpper] at h
      simp [lFix, h]

theorem slashFix_eq_self {s : PyStr} (h : startsSlash s = false) : slashFix s = s := by
  cases s with
  | nil => rfl
  | cons a t =>
    cases t with
    | nil => rfl
    | cons c rest =>
      simp only [startsSlash] at h
      simp [slashFix, h]

/-! ## Character lemmas -/

theorem toNat_Char_ofNat {n : Nat} (h : n < 55296) : (Char.ofNat n).toNat = n := by
  have hv : n.isValidChar := Or.inl h
  rw [Char.ofNat, dif_pos hv]
  rfl

theorem toUpper_ne_lower {c x : Char} (h97 : 97 ≤ x.toNat) (h122 : x.toNat ≤ 122) :
    c.toUpper ≠ x := by
  intro he
  simp only [Char.toUpper] at he
  by_cases hc : Char.toNat c ≥ 97 ∧ Char.toNat c ≤ 122
  · rw [if_pos hc] at he
    have h1 : (Char.ofNat (Char.toNat c - 32)).toNat = Char.toNat c - 32 :=
      toNat_Char_ofNat (by omega)
    rw [he] at h1
    omega
  · rw [if_neg hc] at he
    rw [he] at hc
    exact hc ⟨h97, h122⟩

theorem not_mem_pyUpper_lower {x : Char} (h97 : 97 ≤ x.toNat) (h122 : x.toNat ≤ 122)
    (t : PyStr) : x ∉ pyUpper t := by
  intro hx
  rcases List.mem_map.1 hx with ⟨c, -, hc⟩
  exact toUpper_ne_lower h97 h122 hc

theorem containsSub_pyUpper_false {t needle : PyStr} (x : Char)
    (hx : x ∈ needle) (h97 : 97 ≤ x.toNat) (h122 : x.toNat ≤ 122) :
    containsSub (pyUpper t) needle = false := by
  by_contra h
  rw [Bool.not_eq_false] at h
  have hinf := (containsSub_iff _ _).1 h
  exact not_mem_pyUpper_lower h97 h122 t (hinf.subset hx)

theorem uint32_le_iff {a b : UInt32} : a ≤ b ↔ a.toNat ≤ b.toNat := Iff.rfl

theorem isAlpha_not_isDigit {c : Char} (h : c.isAlpha = true) : c.isDigit = false := by
  simp only [Char.isAlpha, Char.isUpper, Char.isLower, Bool.or_eq_true, Bool.and_eq_true,
    decide_eq_true_eq] at h
  simp only [Char.isDigit]
  rw [Bool.eq_false_iff]
  intro hd
  rw [Bool.and_eq_true, decide_eq_true_eq, decide_eq_true_eq] at hd
  have h48 : (48 : UInt32).toNat ≤ c.val.toNat := uint32_le_iff.1 hd.1
  have h57 : c.val.toNat ≤ (57 : UInt32).toNat := uint32_le_iff.1 hd.2
  have e48 : (48 : UInt32).toNat = 48 := rfl
  have e57 : (57 : UInt32).toNat = 57 := rfl
  rcases h with ⟨hl, hu⟩ | ⟨hl, hu⟩
  · have a1 : (65 : UInt32).toNat ≤ c.val.toNat := uint32_le_iff.1 hl
    have e65 : (65 : UInt32).toNat = 65 := rfl
    omega
  · have a1 : (97 : UInt32).toNat ≤ c.val.toNat := uint32_le_iff.1 hl
    have e97 : (97 : UInt32).toNat = 97 := rfl
    omega

/-! ## The stop-keyword check -/

theorem stopCheck_eq_nine (t : PyStr) : stopCheck t = nineKeyCheck t := by
  have h1 : containsSub (pyUpper t) (String.toList "[or") = false :=
    containsSub_pyUpper_false 'o' (by decide) (by decide) (by decide)
  have h2 : containsSub (pyUpper t) (String.toList "[ot") = false :=
    containsSub_pyUpper_false 'o' (by decide) (by decide) (by decide)
  have h3 : containsSub (pyUpper t) (String.toList "[pI") = false :=
    containsSub_pyUpper_false 'p' (by decide) (by decide) (by decide)
  have h4 : containsSub (pyUpper t) (String.toList "[oI") = false :=
    containsSub_pyUpper_false 'o' (by decide) (by decide) (by decide)
  have h5 : containsSub (pyUpper t) (String.toList "[dI") = false :=
    containsSub_pyUpper_false 'd' (by decide) (by decide) (by decide)
  simp only [stopCheck, nineKeyCheck, stop_keywords, nineKeys, List.map_cons, List.map_nil,
    List.any_cons, List.any_nil, h1, h2, h3, h4, h5, Bool.or_false]

/-! ## Words produced by whitespace splitting -/

theorem splitWsAux_words : ∀ s cur : PyStr, (∀ c ∈ cur, isSpace c = false) →
    ∀ w ∈ splitWsAux s cur, w ≠ [] ∧ ∀ c ∈ w, isSpace c = false
  | [], cur, hcur => by
    intro w hw
    simp only [splitWsAux] at hw
    split at hw
    · cases hw
    · rename_i hne
      rcases List.mem_singleton.1 hw with rfl
      refine ⟨?_, fun c hc => hcur c (List.mem_reverse.1 hc)⟩
      simp only [ne_eq, List.reverse_eq_nil_iff]
      intro hc
      rw [hc] at hne
      simp at hne
  | c :: rest, cur, hcur => by
    intro w hw
    simp only [splitWsAux] at hw
    by_cases hs : isSpace c = true
    · rw [if_pos hs] at hw
      by_cases he : cur.isEmpty = true
      · rw [if_pos he] at hw
        exact splitWsAux_words rest [] (by simp) w hw
      · rw [if_neg he] at hw
        rcases List.mem_cons.1 hw with rfl | hw'
        · refine ⟨?_, fun d hd => hcur d (List.mem_reverse.1 hd)⟩
          simp only [ne_eq, List.reverse_eq_nil_iff]
          intro hc
          rw [hc] at he
          simp at he
        · exact splitWsAux_words rest [] (by simp) w hw'
    · rw [if_neg hs] at hw
      refine splitWsAux_words rest (c :: cur) ?_ w hw
      intro d hd
      rcases List.mem_cons.1 hd with rfl | hd'
      · simpa using hs
      · exact hcur d hd'

theorem pySplitWs_words {s w : PyStr} (hw : w ∈ pySplitWs s) :
    w ≠ [] ∧ ∀ c ∈ w, isSpace c = false :=
  splitWsAux_words s [] (by simp) w hw

theorem splitWsAux_app (w : PyStr) (hw : ∀ c ∈ w, isSpace c = false) :
    ∀ s cur, splitWsAux (w ++ s) cur = splitWsAux s (w.reverse ++ cur) := by
  induction w with
  | nil => intro s cur; simp
  | cons c w' ih =>
    intro s cur
    have hc : isSpace c = false := hw c (by simp)
    show splitWsAux (c :: (w' ++ s)) cur = _
    simp only [splitWsAux, hc]
    rw [ih (fun d hd => hw d (List.mem_cons_of_mem _ hd)) s (c :: cur)]
    simp

theorem splitWsAux_space_cons {c : Char} (hc : isSpace c = true) (s : PyStr) {cur : PyStr}
    (hcur : cur ≠ []) : splitWsAux (c :: s) cur = cur.reverse :: splitWsAux s [] := by
  simp [splitWsAux, hc, List.isEmpty_iff, hcur]

/-! ## Joining with single spaces -/

theorem joinSpace_ne_nil {t : PyStr} (ts : List PyStr) (ht : t ≠ []) :
    joinSpace (t :: ts) ≠ [] := by
  cases ts with
  | nil => exact ht
  | cons t' ts' =>
    show t ++ ' ' :: joinSpace (t' :: ts') ≠ []
    simp

theorem joinSpace_head {t : PyStr} (ts : List PyStr) (ht : t ≠ []) :
    (joinSpace (t :: ts)).head? = t.head? := by
  cases ts with
  | nil => rfl
  | cons t' ts' =>
    show (t ++ ' ' :: joinSpace (t' :: ts')).head? = t.head?
    cases t with
    | nil => exact absurd rfl ht
    | cons a as => rfl

theorem joinSpace_getLast_nonspace :
    ∀ ns : List PyStr, (∀ w ∈ ns, w ≠ [] ∧ ∀ c ∈ w, isSpace c = false) →
    ∀ c, (joinSpace ns).getLast? = some c → isSpace c = false
  | [], _, c, hc => by cases hc
  | [t], h, c, hc => by
    have ht := h t (by simp)
    exact ht.2 c (List.mem_of_getLast?_eq_some hc)
  | t :: t' :: ts, h, c, hc => by
    have hrec := joinSpace_getLast_nonspace (t' :: ts) (fun w hw => h w (List.mem_cons_of_mem _ hw))
    apply hrec
    have hj : joinSpace (t :: t' :: ts) = t ++ ' ' :: joinSpace (t' :: ts) := rfl
    rw [hj, List.getLast?_append_cons] at hc
    have hne : joinSpace (t' :: ts) ≠ [] := joinSpace_ne_nil ts (h t' (by simp)).1
    cases hjj : joinSpace (t' :: ts) with
    | nil => exact absurd hjj hne
    | cons b j' =>
      rw [hjj] at hc
      rw [show (' ' :: b :: j' : PyStr) = [' '] ++ b :: j' from rfl, List.getLast?_append_cons] at hc
      exact hc

theorem dropWhile_eq_self_of_head {p : Char → Bool} {s : PyStr}
    (h : ∀ c, s.head? = some c → p c = false) : s.dropWhile p = s := by
  cases s with
  | nil => rfl
  | cons a l =>
    rw [List.dropWhile_cons, if_neg]
    simp [h a rfl]

theorem pyStrip_joinSpace (ns : List PyStr)
    (h : ∀ w ∈ ns, w ≠ [] ∧ ∀ c ∈ w, isSpace c = false) :
    pyStrip (joinSpace ns) = joinSpace ns := by
  unfold pyStrip
  have h1 : (joinSpace ns).dropWhile isSpace = joinSpace ns := by
    apply dropWhile_eq_self_of_head
    intro c hc
    cases ns with
    | nil => cases hc
    | cons t ts =>
      rw [joinSpace_head ts (h t (by simp)).1] at hc
      cases t with
      | nil => cases hc
      | cons a as =>
        rcases hc with ⟨⟩
        exact (h (c :: as) (by simp)).2 c (by simp)
  have h2 : (joinSpace ns).reverse.dropWhile isSpace = (joinSpace ns).reverse := by
    apply dropWhile_eq_self_of_head
    intro c hc
    rw [List.head?_reverse] at hc
    exact joinSpace_getLast_nonspace ns h c hc
  rw [h1, h2, List.reverse_reverse]

/-! ## Collapsing whitespace runs -/

theorem collapseAux_nonspace (w : PyStr) (hw : ∀ c ∈ w, isSpace c = false) :
    ∀ s, collapseAux false (w ++ s) = w ++ collapseAux false s := by
  induction w with
  | nil => intro s; rfl
  | cons c w' ih =>
    intro s
    have hc : isSpace c = false := hw c (by simp)
    show collapseAux false (c :: (w' ++ s)) = _
    simp only [collapseAux, hc]
    rw [ih (fun d hd => hw d (List.mem_cons_of_mem _ hd)) s]
    simp

theorem collapseAux_true_eq_false {s : PyStr}
    (h : ∀ c, s.head? = some c → isSpace c = false) :
    collapseAux true s = collapseAux false s := by
  cases s with
  | nil => rfl
  | cons c rest =>
    have hc := h c rfl
    simp [collapseAux, hc]

theorem collapseAux_space_cons {c : Char} (hc : isSpace c = true) (s : PyStr) :
    collapseAux false (c :: s) = ' ' :: collapseAux true s := by
  simp [collapseAux, hc]

theorem collapseWs_joinSpace : ∀ ns : List PyStr,
    (∀ w ∈ ns, w ≠ [] ∧ ∀ c ∈ w, isSpace c = false) →
    collapseWs (joinSpace ns) = joinSpace ns
  | [], _ => rfl
  | [t], h => by
    have ht := h t (by simp)
    show collapseAux false t = t
    have h2 := collapseAux_nonspace t ht.2 []
    simpa [collapseAux] using h2
  | t :: t' :: ts, h => by
    show collapseAux false (joinSpace (t :: t' :: ts)) = joinSpace (t :: t' :: ts)
    have hj : joinSpace (t :: t' :: ts) = t ++ ' ' :: joinSpace (t' :: ts) := rfl
    rw [hj, collapseAux_nonspace t (h t (by simp)).2 (' ' :: joinSpace (t' :: ts))]
    congr 1
    rw [collapseAux_space_cons (c := ' ') rfl]
    congr 1
    rw [collapseAux_true_eq_false]
    · exact collapseWs_joinSpace (t' :: ts) (fun w hw => h w (List.mem_cons_of_mem _ hw))
    · intro c hc
      rw [joinSpace_head ts (h t' (by simp)).1] at hc
      cases ht' : t' with
      | nil => exact absurd ht' (h t' (by simp)).1
      | cons a as =>
        rw [ht'] at hc
        rcases hc with ⟨⟩
        exact (h t' (by simp)).2 c (by rw [ht']; simp)

theorem pySplitWs_joinSpace : ∀ ns : List PyStr,
    (∀ w ∈ ns, w ≠ [] ∧ ∀ c ∈ w, isSpace c = false) →
    pySplitWs (joinSpace ns) = ns
  | [], _ => rfl
  | [t], h => by
    have ht := h t (by simp)
    show splitWsAux (joinSpace [t]) [] = [t]
    rw [show (joinSpace [t] : PyStr) = t ++ [] by simp [joinSpace]]
    rw [splitWsAux_app t ht.2 [] []]
    simp only [splitWsAux, List.append_nil]
    rw [if_neg (by simp [List.isEmpty_iff, ht.1])]
    simp
  | t :: t' :: ts, h => by
    have ht := h t (by simp)
    show splitWsAux (joinSpace (t :: t' :: ts)) [] = t :: t' :: ts
    have hj : joinSpace (t :: t' :: ts) = t ++ ' ' :: joinSpace (t' :: ts) := rfl
    rw [hj, splitWsAux_app t ht.2 (' ' :: joinSpace (t' :: ts)) []]
    simp only [List.append_nil]
    rw [splitWsAux_space_cons (c := ' ') rfl _ (by simp [ht.1])]
    rw [List.reverse_reverse]
    congr 1
    exact pySplitWs_joinSpace (t' :: ts) (fun w hw => h w (List.mem_cons_of_mem _ hw))

/-! ## The token collection loop -/

theorem extractLoop_cons (tk : PyStr) (rest acc : List PyStr) :
    extractLoop (tk :: rest) acc =
      if stopCheck tk then acc
      else if (clean_ocr_artifacts tk).isEmpty then extractLoop rest acc
      else if isDigitStr (clean_ocr_artifacts tk) && decide (0 < acc.length) then
        if (clean_ocr_artifacts tk).length ≤ MAX_SMALL_NUMBER_LENGTH then
          acc ++ [clean_ocr_artifacts tk]
        else acc
      else
        if MAX_NAME_TOKENS ≤ (acc ++ [clean_ocr_artifacts tk]).length then
          acc ++ [clean_ocr_artifacts tk]
        else extractLoop rest (acc ++ [clean_ocr_artifacts tk]) := rfl

theorem isDigitStr_ne_nil {s : PyStr} (h : isDigitStr s = true) : s.isEmpty = false := by
  unfold isDigitStr at h
  rw [Bool.and_eq_true] at h
  simpa using h.1

theorem extractLoop_stop {tk : PyStr} (rest acc : List PyStr) (h : stopCheck tk = true) :
    extractLoop (tk :: rest) acc = acc := by
  rw [extractLoop_cons, if_pos h]

theorem extractLoop_skip {tk : PyStr} (rest acc : List PyStr) (h1 : stopCheck tk = false)
    (h2 : (clean_ocr_artifacts tk).isEmpty = true) :
    extractLoop (tk :: rest) acc = extractLoop rest acc := by
  rw [extractLoop_cons, if_neg (by simp [h1]), if_pos h2]

theorem extractLoop_digit_first {tk : PyStr} (rest : List PyStr) (h1 : stopCheck tk = false)
    (h2 : isDigitStr (clean_ocr_artifacts tk) = true) :
    extractLoop (tk :: rest) [] = extractLoop rest [clean_ocr_artifacts tk] := by
  rw [extractLoop_cons, if_neg (by simp [h1]), if_neg (by simp [isDigitStr_ne_nil h2]),
    if_neg (by simp), if_neg (by simp [MAX_NAME_TOKENS])]
  simp

theorem extractLoop_digit_append {tk : PyStr} (rest acc : List PyStr) (hacc : acc ≠ [])
    (h1 : stopCheck tk = false) (h2 : isDigitStr (clean_ocr_artifacts tk) = true)
    (h3 : (clean_ocr_artifacts tk).length ≤ 2) :
    extractLoop (tk :: rest) acc = acc ++ [clean_ocr_artifacts tk] := by
  rw [extractLoop_cons, if_neg (by simp [h1]), if_neg (by simp [isDigitStr_ne_nil h2]),
    if_pos (by simp [h2, List.length_pos, hacc]),
    if_pos (by simpa [MAX_SMALL_NUMBER_LENGTH] using h3)]

theorem extractLoop_digit_drop {tk : PyStr} (rest acc : List PyStr) (hacc : acc ≠ [])
    (h1 : stopCheck tk = false) (h2 : isDigitStr (clean_ocr_artifacts tk) = true)
    (h3 : 2 < (clean_ocr_artifacts tk).length) :
    extractLoop (tk :: rest) acc = acc := by
  rw [extractLoop_cons, if_neg (by simp [h1]), if_neg (by simp [isDigitStr_ne_nil h2]),
    if_pos (by simp [h2, List.length_pos, hacc]),
    if_neg (by simp [MAX_SMALL_NUMBER_LENGTH]; omega)]

theorem extractLoop_mem : ∀ (toks acc : List PyStr) (w : PyStr), w ∈ extractLoop toks acc →
    w ∈ acc ∨ (w ≠ [] ∧ ∃ tk ∈ toks, w = clean_ocr_artifacts tk)
  | [], _, _, hw => Or.inl hw
  | tk :: rest, acc, w, hw => by
    rw [extractLoop_cons] at hw
    split_ifs at hw with h1 h2 h3 h4 h5
    · exact Or.inl hw
    · rcases extractLoop_mem rest acc w hw with h | ⟨hne, tk', htk', heq⟩
      · exact Or.inl h
      · exact Or.inr ⟨hne, tk', List.mem_cons_of_mem _ htk', heq⟩
    · rcases List.mem_append.1 hw with h | h
      · exact Or.inl h
      · rcases List.mem_singleton.1 h with rfl
        exact Or.inr ⟨by simpa [List.isEmpty_iff] using h2, tk, List.mem_cons_self _ _, rfl⟩
    · exact Or.inl hw
    · rcases List.mem_append.1 hw with h | h
      · exact Or.inl h
      · rcases List.mem_singleton.1 h with rfl
        exact Or.inr ⟨by simpa [List.isEmpty_iff] using h2, tk, List.mem_cons_self _ _, rfl⟩
    · rcases extractLoop_mem rest (acc ++ [clean_ocr_artifacts tk]) w hw with h | ⟨hne, tk', htk', heq⟩
      · rcases List.mem_append.1 h with h' | h'
        · exact Or.inl h'
        · rcases List.mem_singleton.1 h' with rfl
          exact Or.inr ⟨by simpa [List.isEmpty_iff] using h2, tk, List.mem_cons_self _ _, rfl⟩
      · exact Or.inr ⟨hne, tk', List.mem_cons_of_mem _ htk', heq⟩

theorem extractLoop_words {text w : PyStr}
    (hw : w ∈ extractLoop (pySplitWs text) []) :
    w ≠ [] ∧ ∀ c ∈ w, isSpace c = false := by
  rcases extractLoop_mem _ _ _ hw with h | ⟨hne, tk, htk, heq⟩
  · cases h
  · subst heq
    exact ⟨hne, fun c hc => (pySplitWs_words htk).2 c (mem_of_mem_clean hc)⟩

theorem section_eq_join (text : PyStr) :
    extract_point_name_from_section text = joinSpace (extractLoop (pySplitWs text) []) := by
  rw [show extract_point_name_from_section text =
      (if (pySplitWs text).isEmpty then []
       else collapseWs (pyStrip (joinSpace (extractLoop (pySplitWs text) [])))) from rfl]
  by_cases he : (pySplitWs text).isEmpty = true
  · rw [if_pos he, List.isEmpty_iff.1 he]
    rfl
  · rw [if_neg he]
    have hts : ∀ w ∈ extractLoop (pySplitWs text) [], w ≠ [] ∧ ∀ c ∈ w, isSpace c = false :=
      fun w hw => extractLoop_words hw
    rw [pyStrip_joinSpace _ hts, collapseWs_joinSpace _ hts]

/-! ## No inner digit token invariant of the loop -/

theorem decomp_concat {α : Type} {xs : List α} {y : α} {pre : List α} {t : α} {post : List α}
    (h : xs ++ [y] = pre ++ t :: post) :
    (pre = xs ∧ t = y ∧ post = []) ∨ ∃ post', xs = pre ++ t :: post' ∧ post = post' ++ [y] := by
  rcases List.eq_nil_or_concat post with rfl | ⟨post', z, rfl⟩
  · rcases List.append_inj' h (by simp) with ⟨h1, h2⟩
    have h3 : t = y := by simpa using h2.symm
    exact Or.inl ⟨h1.symm, h3, rfl⟩
  · rw [List.concat_eq_append, show pre ++ t :: (post' ++ [z]) = (pre ++ t :: post') ++ [z] by simp] at h
    rcases List.append_inj' h (by simp) with ⟨h1, h2⟩
    have h3 : y = z := by simpa using h2
    exact Or.inr ⟨post', h1, by rw [h3, List.concat_eq_append]⟩

theorem extractLoop_inner_digit :
    ∀ (toks acc : List PyStr),
    (∀ pre t post, acc = pre ++ t :: post → pre ≠ [] → isDigitStr t = false) →
    ∀ pre t post, extractLoop toks acc = pre ++ t :: post → pre ≠ [] → isDigitStr t = true →
      post = [] ∧ t.length ≤ 2
  | [], acc, hI, pre, t, post, heq, hpre, hdig => by
    rw [hI pre t post heq hpre] at hdig
    cases hdig
  | tk :: rest, acc, hI, pre, t, post, heq, hpre, hdig => by
    rw [extractLoop_cons] at heq
    split_ifs at heq with h1 h2 h3 h4 h5
    · rw [hI pre t post heq hpre] at hdig
      cases hdig
    · exact extractLoop_inner_digit rest acc hI pre t post heq hpre hdig
    · rcases decomp_concat heq with ⟨rfl, rfl, rfl⟩ | ⟨post', hacc, rfl⟩
      · exact ⟨rfl, by simpa [MAX_SMALL_NUMBER_LENGTH] using h4⟩
      · rw [hI pre t post' hacc hpre] at hdig
        cases hdig
    · rw [hI pre t post heq hpre] at hdig
      cases hdig
    · rcases decomp_concat heq with ⟨rfl, rfl, rfl⟩ | ⟨post', hacc, rfl⟩
      · exfalso
        apply h3
        simp [hdig, List.length_pos, hpre]
      · rw [hI pre t post' hacc hpre] at hdig
        cases hdig
    · refine extractLoop_inner_digit rest (acc ++ [clean_ocr_artifacts tk]) ?_ pre t post heq hpre hdig
      intro pre' t' post' heq' hpre'
      rcases decomp_concat heq' with ⟨rfl, rfl, rfl⟩ | ⟨post'', hacc, rfl⟩
      · by_cases hd : isDigitStr (clean_ocr_artifacts tk) = true
        · exfalso
          apply h3
          simp [hd, List.length_pos, hpre']
        · simpa using hd
      · exact hI pre' t' post'' hacc hpre'

/-! ## The line classifier -/

theorem processLine_eq (acc : List PyStr) (rawLine : PyStr) :
    processLine acc rawLine =
      (if (pyStrip rawLine).isEmpty then acc
       else if containsSub (pyUpper (pyStrip rawLine)) pointNameHeader then acc
       else if skipSubstrings.any (fun s => containsSub (pyStrip rawLine) s) then acc
       else
         match rowMatch (pyStrip rawLine) with
         | none => acc
         | some rem =>
           if !(extract_point_name_from_section
                  (pyStrip ((pySplitOn '|' (pyStrip rem)).headD []))).isEmpty &&
              is_valid_point_name (extract_point_name_from_section
                  (pyStrip ((pySplitOn '|' (pyStrip rem)).headD []))) then
             acc ++ [extract_point_name_from_section
                  (pyStrip ((pySplitOn '|' (pyStrip rem)).headD []))]
           else acc) := rfl

theorem processLine_no_match {acc : List PyStr} {rawLine : PyStr}
    (h : rowMatch (pyStrip rawLine) = none) : processLine acc rawLine = acc := by
  rw [processLine_eq]
  split_ifs
  · rfl
  · rfl
  · rfl
  · split
    · rfl
    · rename_i rem heq
      rw [h] at heq
      cases heq

theorem processLine_cases (acc : List PyStr) (rawLine : PyStr) :
    processLine acc rawLine = acc ∨
    ∃ sec, processLine acc rawLine = acc ++ [extract_point_name_from_section sec] ∧
      extract_point_name_from_section sec ≠ [] ∧
      is_valid_point_name (extract_point_name_from_section sec) = true := by
  rw [processLine_eq]
  split_ifs
  · exact Or.inl rfl
  · exact Or.inl rfl
  · exact Or.inl rfl
  · split
    · exact Or.inl rfl
    · rename_i rem heq
      by_cases hc : (!(extract_point_name_from_section
            (pyStrip ((pySplitOn '|' (pyStrip rem)).headD []))).isEmpty &&
          is_valid_point_name (extract_point_name_from_section
            (pyStrip ((pySplitOn '|' (pyStrip rem)).headD [])))) = true
      · have hc' := hc
        rw [Bool.and_eq_true] at hc'
        refine Or.inr ⟨pyStrip ((pySplitOn '|' (pyStrip rem)).headD []), ?_, ?_, hc'.2⟩
        · rw [if_pos hc]
        · simpa [List.isEmpty_iff] using hc'.1
      · rw [if_neg hc]
        exact Or.inl rfl

theorem foldl_processLine_mem : ∀ (lines : List PyStr) (acc : List PyStr) (name : PyStr),
    name ∈ lines.foldl processLine acc →
    name ∈ acc ∨ ∃ sec, name = extract_point_name_from_section sec ∧
      name ≠ [] ∧ is_valid_point_name name = true
  | [], _, _, h => Or.inl h
  | line :: rest, acc, name, h => by
    rcases foldl_processLine_mem rest (processLine acc line) name h with h' | h'
    · rcases processLine_cases acc line with hc | ⟨sec, hc, hne, hv⟩
      · rw [hc] at h'
        exact Or.inl h'
      · rw [hc] at h'
        rcases List.mem_append.1 h' with h'' | h''
        · exact Or.inl h''
        · rcases List.mem_singleton.1 h'' with rfl
          exact Or.inr ⟨sec, rfl, hne, hv⟩
    · exact Or.inr h'

theorem mem_extract_output {text name : PyStr} (h : name ∈ extract_point_names_from_text text) :
    ∃ sec, name = extract_point_name_from_section sec ∧
      name ≠ [] ∧ is_valid_point_name name = true := by
  unfold extract_point_names_from_text at h
  rcases foldl_processLine_mem _ _ _ h with h' | h'
  · cases h'
  · exact h'

/-! ## The validator -/

theorem containsSub_upper_of_strip {name : PyStr}
    (h : containsSub (pyUpper name) spareChars = true) :
    containsSub (pyStrip (pyUpper name)) spareChars = true := by
  rw [containsSub_iff] at h ⊢
  exact infix_pyStrip (by decide) (by decide) h

theorem is_valid_spec {name : PyStr} (h : is_valid_point_name name = true) :
    pyStrip name ≠ [] ∧ 1 < (pyStrip name).length ∧ name.any Char.isAlpha = true ∧
    containsSub (pyUpper name) spareChars = false := by
  unfold is_valid_point_name at h
  split_ifs at h with h1 h2 h3 h4
  refine ⟨?_, by omega, by simpa using h4, ?_⟩
  · intro hc
    exact h1 (by simp [hc])
  · rw [Bool.eq_false_iff]
    intro hc
    exact h2 (containsSub_upper_of_strip hc)

/-! ## The cleaner steps match the specification wording -/

theorem lFix_eq_spec (s : PyStr) : lFix s = lSpecStep s := by
  cases s with
  | nil => rfl
  | cons a t =>
    cases t with
    | nil =>
      simp [lFix, lSpecStep]
    | cons c rest =>
      have hlen : decide (1 < (a :: c :: rest : PyStr).length) = true := by
        simp [List.length_cons]
      simp only [lFix, lSpecStep, List.head?_cons, Option.getD_some, hlen,
        List.drop_succ_cons, List.drop_zero, Bool.and_true]

theorem slashFix_eq_spec (s : PyStr) : slashFix s = slashSpecStep s := by
  cases s with
  | nil => rfl
  | cons a t =>
    cases t with
    | nil =>
      simp [slashFix, slashSpecStep]
    | cons c rest =>
      have hlen : decide (1 < (a :: c :: rest : PyStr).length) = true := by
        simp [List.length_cons]
      simp only [slashFix, slashSpecStep, List.head?_cons, Option.getD_some, hlen,
        List.drop_succ_cons, List.drop_zero, Bool.and_true]

theorem mem_joinSpace : ∀ (ns : List PyStr) (c : Char), c ∈ joinSpace ns →
    c = ' ' ∨ ∃ w ∈ ns, c ∈ w
  | [], _, h => by cases h
  | [t], c, h => Or.inr ⟨t, by simp, h⟩
  | t :: t' :: ts, c, h => by
    rw [show joinSpace (t :: t' :: ts) = t ++ ' ' :: joinSpace (t' :: ts) from rfl] at h
    rcases List.mem_append.1 h with h' | h'
    · exact Or.inr ⟨t, by simp, h'⟩
    · rcases List.mem_cons.1 h' with rfl | h''
      · exact Or.inl rfl
      · rcases mem_joinSpace (t' :: ts) c h'' with h3 | ⟨w, hw, hcw⟩
        · exact Or.inl h3
        · exact Or.inr ⟨w, List.mem_cons_of_mem _ hw, hcw⟩

/-! ## Claims -/

/-- C1 counterexample: on the three-line document of the claim the extractor
returns ["Pump 1"], not ["Pump 1 Run Status"]: the numeric continuation rule
appends the short digit token "1" and then stops iteration, truncating the
name. -/
theorem C1_counterexample :
    extract_point_names_from_text
      (String.toList "NO. | POINT NAME | STATE\n1 | Pump 1 Run Status | CLOSE\n2 | Spare")
      = [String.toList "Pump 1"] ∧
    (String.toList "Pump 1" : PyStr) ≠ String.toList "Pump 1 Run Status" := by
  exact ⟨by decide, by decide⟩

/-- C1 (amended): for the input text of the claim, extract_point_names_from_text
returns exactly the one-element sequence ["Pump 1"]: the header line is skipped,
the Spare row is rejected by the validator, and the name of the middle row is
truncated after the short numeric token "1" by the numeric continuation rule. -/
theorem C1_document_extraction :
    extract_point_names_from_text
      (String.toList "NO. | POINT NAME | STATE\n1 | Pump 1 Run Status | CLOSE\n2 | Spare")
      = [String.toList "Pump 1"] := by
  decide

/-- C2: every string in the sequence returned by extract_point_names_from_text
is non-empty, not all-whitespace, has trimmed length strictly greater than one,
contains an alphabetic character (hence is never solely numeric), and its
uppercased form does not contain the substring SPARE. -/
theorem C2_output_invariant (text name : PyStr)
    (h : name ∈ extract_point_names_from_text text) :
    name ≠ [] ∧ pyStrip name ≠ [] ∧ 1 < (pyStrip name).length ∧
    name.any Char.isAlpha = true ∧ isDigitStr name = false ∧
    containsSub (pyUpper name) spareChars = false := by
  rcases mem_extract_output h with ⟨sec, -, hne, hv⟩
  rcases is_valid_spec hv with ⟨h1, h2, h3, h4⟩
  refine ⟨hne, h1, h2, h3, ?_, h4⟩
  rw [Bool.eq_false_iff]
  intro hd
  unfold isDigitStr at hd
  rw [Bool.and_eq_true] at hd
  rcases List.any_eq_true.1 h3 with ⟨c, hc, hca⟩
  have hcd := List.all_eq_true.1 hd.2 c hc
  rw [isAlpha_not_isDigit hca] at hcd
  cases hcd

/-- C2 witness: the document "1 | Pump 7 | CLOSE" produces the name "Pump 7",
which satisfies every conjunct. -/
theorem C2_witness :
    (String.toList "Pump 7" : PyStr) ≠ [] ∧ pyStrip (String.toList "Pump 7") ≠ [] ∧
    1 < (pyStrip (String.toList "Pump 7")).length ∧
    (String.toList "Pump 7").any Char.isAlpha = true ∧
    isDigitStr (String.toList "Pump 7") = false ∧
    containsSub (pyUpper (String.toList "Pump 7")) spareChars = false :=
  C2_output_invariant (String.toList "1 | Pump 7 | CLOSE") (String.toList "Pump 7") (by decide)

/-- C3 counterexample: the raw token "[or" contains the bracketed marker "[or"
verbatim, yet the stop-keyword check is false on it, and the loop consumes the
token (cleaned to "or") instead of stopping: the remainder "ab [or" extracts to
"ab or". -/
theorem C3_counterexample :
    containsSub (String.toList "[or") (String.toList "[or") = true ∧
    stopCheck (String.toList "[or") = false ∧
    extract_point_name_from_section (String.toList "ab [or") = String.toList "ab or" := by
  exact ⟨by decide, by decide, by decide⟩

/-- C3 (amended): iteration stops without consuming the token under the
stop-keyword check exactly when the uppercased token contains one of the nine
alphabetic keywords CLOSE, OPEN, NORMAL, ALARM, AUTO, SOLID, MANUAL, RK, DI;
the five bracketed markers never fire, because the check compares every keyword
against the uppercased token, and an uppercased token cannot contain their
lowercase letters. -/
theorem C3_stop_keywords :
    (∀ t : PyStr, stopCheck t = nineKeyCheck t) ∧
    (∀ (t : PyStr) (rest acc : List PyStr), nineKeyCheck t = true →
      extractLoop (t :: rest) acc = acc) :=
  ⟨stopCheck_eq_nine,
   fun t rest acc h => extractLoop_stop rest acc (by rw [stopCheck_eq_nine]; exact h)⟩

/-- C4: the numeric continuation rule of extract_point_name_from_section: a
solely-numeric cleaned token is appended and iteration continues when the
accumulator is empty; with a non-empty accumulator it is appended and iteration
stops when its length is at most two, and iteration stops without appending
when its length exceeds two; and extract("Feeder 7 Amps 001") = "Feeder 7". -/
theorem C4_numeric_rule :
    (∀ (tk : PyStr) (rest : List PyStr), stopCheck tk = false →
      isDigitStr (clean_ocr_artifacts tk) = true →
      extractLoop (tk :: rest) [] = extractLoop rest [clean_ocr_artifacts tk]) ∧
    (∀ (tk : PyStr) (rest acc : List PyStr), acc ≠ [] → stopCheck tk = false →
      isDigitStr (clean_ocr_artifacts tk) = true → (clean_ocr_artifacts tk).length ≤ 2 →
      extractLoop (tk :: rest) acc = acc ++ [clean_ocr_artifacts tk]) ∧
    (∀ (tk : PyStr) (rest acc : List PyStr), acc ≠ [] → stopCheck tk = false →
      isDigitStr (clean_ocr_artifacts tk) = true → 2 < (clean_ocr_artifacts tk).length →
      extractLoop (tk :: rest) acc = acc) ∧
    extract_point_name_from_section (String.toList "Feeder 7 Amps 001")
      = String.toList "Feeder 7" :=
  ⟨fun _ rest h1 h2 => extractLoop_digit_first rest h1 h2,
   fun _ rest acc ha h1 h2 h3 => extractLoop_digit_append rest acc ha h1 h2 h3,
   fun _ rest acc ha h1 h2 h3 => extractLoop_digit_drop rest acc ha h1 h2 h3,
   by decide⟩

/-- C5: is_valid_point_name returns false exactly when the name is empty or
all-whitespace, or its uppercased form contains SPARE, or its trimmed length is
at most one, or it has no alphabetic character; and the six concrete examples
of the claim. -/
theorem C5_validator :
    (∀ name : PyStr, is_valid_point_name name = false ↔
      (pyStrip name = [] ∨ containsSub (pyUpper name) spareChars = true ∨
       (pyStrip name).length ≤ 1 ∨ name.any Char.isAlpha = false)) ∧
    is_valid_point_name (String.toList "Spare") = false ∧
    is_valid_point_name (String.toList "SPARE 12") = false ∧
    is_valid_point_name (String.toList "") = false ∧
    is_valid_point_name (String.toList "1") = false ∧
    is_valid_point_name (String.toList "12") = false ∧
    is_valid_point_name (String.toList "Pump 1") = true := by
  refine ⟨?_, by decide, by decide, by decide, by decide, by decide, by decide⟩
  intro name
  constructor
  · intro h
    unfold is_valid_point_name at h
    split_ifs at h with h1 h2 h3 h4
    · left
      rw [Bool.or_eq_true] at h1
      rcases h1 with h1 | h1
      · have hn : name = [] := by simpa [List.isEmpty_iff] using h1
        rw [hn]
        rfl
      · simpa [List.isEmpty_iff] using h1
    · right; left
      exact containsSub_mono h2 (pyStrip_isInfix _)
    · right; right; left
      exact h3
    · right; right; right
      simpa using h4
  · intro hd
    unfold is_valid_point_name
    split_ifs with g1 g2 g3 g4
    · rfl
    · rfl
    · rfl
    · rfl
    · exfalso
      rcases hd with h | h | h | h
      · exact g1 (by simp [h])
      · exact g2 (containsSub_upper_of_strip h)
      · exact g3 h
      · rw [Bool.not_eq_true] at g4
        simp only [Bool.not_eq_false'] at g4
        rw [h] at g4
        cases g4

/-- C6: clean_ocr_artifacts is idempotent on every token whose cleaned form
does not begin with a lowercase l followed by an uppercase character and does
not begin with a slash. -/
theorem C6_clean_idempotent (t : PyStr)
    (h1 : startsLUpper (clean_ocr_artifacts t) = false)
    (h2 : startsSlash (clean_ocr_artifacts t) = false) :
    clean_ocr_artifacts (clean_ocr_artifacts t) = clean_ocr_artifacts t := by
  have hfilter : (clean_ocr_artifacts t).filter (fun c => !(artifactChars.contains c))
      = clean_ocr_artifacts t :=
    List.filter_eq_self.2 (fun c hc => by
      show (!(List.contains artifactChars c)) = true
      rw [clean_no_artifact hc]
      rfl)
  calc clean_ocr_artifacts (clean_ocr_artifacts t)
      = pyStrip (slashFix (lFix ((clean_ocr_artifacts t).filter
          (fun c => !(artifactChars.contains c))))) := rfl
    _ = pyStrip (slashFix (lFix (clean_ocr_artifacts t))) := by rw [hfilter]
    _ = pyStrip (slashFix (clean_ocr_artifacts t)) := by rw [lFix_eq_self h1]
    _ = pyStrip (clean_ocr_artifacts t) := by rw [slashFix_eq_self h2]
    _ = clean_ocr_artifacts t := pyStrip_clean t

/-- C6 witness: the token "a(b)" cleans to "ab", which starts with neither
pattern, and a second pass leaves it unchanged. -/
theorem C6_witness :
    startsLUpper (clean_ocr_artifacts (String.toList "a(b)")) = false ∧
    startsSlash (clean_ocr_artifacts (String.toList "a(b)")) = false ∧
    clean_ocr_artifacts (clean_ocr_artifacts (String.toList "a(b)"))
      = clean_ocr_artifacts (String.toList "a(b)") :=
  ⟨by decide, by decide, C6_clean_idempotent (String.toList "a(b)") (by decide) (by decide)⟩

/-- C7: graceful degradation of extract_point_names_from_text, a total
function: the empty document yields the empty sequence; a line whose stripped
form does not match the row pattern contributes nothing; a token that cleans
to empty is skipped by the loop; and a document all of whose lines contribute
nothing yields the empty sequence. -/
theorem C7_graceful :
    extract_point_names_from_text [] = [] ∧
    (∀ (acc : List PyStr) (line : PyStr), rowMatch (pyStrip line) = none →
      processLine acc line = acc) ∧
    (∀ (tk : PyStr) (rest acc : List PyStr), stopCheck tk = false →
      clean_ocr_artifacts tk = [] → extractLoop (tk :: rest) acc = extractLoop rest acc) ∧
    (∀ text : PyStr, (∀ line ∈ pySplitOn '\n' text, ∀ acc, processLine acc line = acc) →
      extract_point_names_from_text text = []) := by
  refine ⟨by decide, fun acc line h => processLine_no_match h, ?_, ?_⟩
  · intro tk rest acc h1 h2
    exact extractLoop_skip rest acc h1 (by simp [h2])
  · intro text hall
    unfold extract_point_names_from_text
    have hgen : ∀ (lines : List PyStr) (acc : List PyStr),
        (∀ line ∈ lines, ∀ a, processLine a line = a) →
        lines.foldl processLine acc = acc := by
      intro lines
      induction lines with
      | nil => intro acc _; rfl
      | cons l ls ih =>
        intro acc hl
        show List.foldl processLine (processLine acc l) ls = acc
        rw [hl l (by simp) acc]
        exact ih acc (fun x hx a => hl x (List.mem_cons_of_mem _ hx) a)
    exact hgen _ [] hall

/-- C8: clean_ocr_artifacts computes exactly the four-step description of the
claim, stated as the independently written clean_spec, and the empty token
cleans to the empty token. -/
theorem C8_clean_matches_description :
    (∀ t : PyStr, clean_ocr_artifacts t = clean_spec t) ∧
    clean_ocr_artifacts [] = [] := by
  refine ⟨?_, rfl⟩
  intro t
  have hf : t.filter (fun c => !(artifactChars.contains c))
      = t.filter (fun c =>
        !(c == '|' || c == '[' || c == ']' || c == '(' || c == ')' ||
          c == '{' || c == '}' || c == '_')) := by
    apply List.filter_congr
    intro c _
    have hbeq : ∀ a b : Char, (a == b) = decide (a = b) := fun a b => by
      by_cases hab : a = b <;> simp [hab]
    simp [artifactChars, Bool.or_assoc, hbeq]
  unfold clean_ocr_artifacts clean_spec
  rw [hf, lFix_eq_spec, slashFix_eq_spec]

/-- C9: no string returned by extract_point_names_from_text contains any of
the artifact characters, since every name is a space-join of tokens that each
passed through clean_ocr_artifacts. -/
theorem C9_no_artifact_in_output (text name : PyStr) (c : Char)
    (h : name ∈ extract_point_names_from_text text) (hc : c ∈ name) :
    artifactChars.contains c = false := by
  rcases mem_extract_output h with ⟨sec, rfl, -, -⟩
  rw [section_eq_join] at hc
  rcases mem_joinSpace _ _ hc with rfl | ⟨w, hw, hcw⟩
  · decide
  · rcases extractLoop_mem _ _ _ hw with h' | ⟨-, tk, -, heq⟩
    · cases h'
    · subst heq
      exact clean_no_artifact hcw

/-- C9 witness: the character P of the extracted name "Pump 7" is not an
artifact character. -/
theorem C9_witness : artifactChars.contains 'P' = false :=
  C9_no_artifact_in_output (String.toList "1 | Pump 7 | CLOSE") (String.toList "Pump 7") 'P'
    (by decide) (by decide)

/-- C10: in the whitespace token list of the string returned by
extract_point_name_from_section, every solely-numeric token that is not the
first token is the final token and has length at most two. -/
theorem C10_inner_numeric_tokens (text : PyStr) (pre : List PyStr) (tok : PyStr)
    (post : List PyStr)
    (h : pySplitWs (extract_point_name_from_section text) = pre ++ tok :: post)
    (hpre : pre ≠ []) (hdig : isDigitStr tok = true) :
    post = [] ∧ tok.length ≤ 2 := by
  rw [section_eq_join, pySplitWs_joinSpace _ (fun w hw => extractLoop_words hw)] at h
  refine extractLoop_inner_digit (pySplitWs text) [] ?_ pre tok post h hpre hdig
  intro pre' t' post' he hp
  simp at he

/-- C10 witness: the section "Pump 77" extracts to "Pump 77", whose second
token "77" is numeric, final and short. -/
theorem C10_witness : ([] : List PyStr) = [] ∧ (String.toList "77").length ≤ 2 :=
  C10_inner_numeric_tokens (String.toList "Pump 77") [String.toList "Pump"]
    (String.toList "77") [] (by decide) (by decide) (by decide)
